import Mathlib

/-!
Verification of the RAG lookup path of `backend/smit_rag.py`: chunk a
knowledge document, embed it, index it, retrieve the top-k nearest chunks
for a query, and assemble a bounded context string.

The repository configures external collaborators
(`RecursiveCharacterTextSplitter`, `FAISS`, the Gemini embedder) whose
internals are not part of the repository's files; those components are
modelled here from the specification's contracts (each such definition says
so in its doc comment).  The `retrieve_info` tool body — take the first
three retrieved chunk texts, join them with a blank line, and fall back to
the sentinel string `"No relevant info found."` when the join is empty — is
code of the repository and is embedded directly.
-/

namespace SmitRag

/-- An index entry: a chunk text paired with its embedding vector.
Vectors are modelled as lists of integers (the provider returns a
fixed-length numeric vector; exact arithmetic stands in for floats). -/
structure Entry where
  text : String
  vec : List ℤ
deriving DecidableEq

/-- Modelled from the spec: `InvalidConfiguration` of §7, raised by the
Chunker when `overlap ≥ max_size` (the check itself lives inside the external
`RecursiveCharacterTextSplitter`, not in the repository's files). -/
inductive ChunkError where
  | invalidConfiguration (maxSize overlap : Nat)
deriving DecidableEq

/-- Modelled from the spec: `EmbeddingError` of §7 — the external embedding
call failed; the provider call itself is not in the repository's files. -/
inductive EmbeddingError where
  | providerFailure (message : String)
deriving DecidableEq

/-- Modelled from the spec: the Chunker contract of §4.1/§8 for a fixed
`(max_size, overlap)` pair, as implemented by the external
`RecursiveCharacterTextSplitter` (not in the repository's files).  The
separator-priority choice of split points is abstracted away; what is
modelled is the size/overlap contract of §8: each chunk has length at most
`maxSize`, consecutive chunks share exactly `overlap` characters, and the
non-overlapping segments concatenate back to the document.  A document that
still fits in one chunk is returned whole; otherwise a window of `maxSize`
characters is emitted and the window advances by `maxSize - overlap`. -/
def chunkWindowAux (maxSize overlap : Nat) : Nat → List Char → List (List Char)
  | 0, s => [s]
  | fuel + 1, s =>
    if s.length ≤ maxSize ∨ maxSize - overlap = 0 then [s]
    else s.take maxSize :: chunkWindowAux maxSize overlap fuel (s.drop (maxSize - overlap))

/-- Modelled from the spec: see `chunkWindowAux`; `s.length` steps of fuel
always suffice. -/
def chunkWindow (maxSize overlap : Nat) (s : List Char) : List (List Char) :=
  chunkWindowAux maxSize overlap s.length s

/-- Modelled from the spec: the degenerate path of §4.1 — an atomic unit
with no separator that exceeds `max_size` is hard-split at `max_size` with
no overlap for that unit. -/
def hardSplit (maxSize : Nat) (s : List Char) : List (List Char) :=
  chunkWindow maxSize 0 s

/-- The chunk sequence as strings, as `splitter.split_documents` produces it
for the loaded document. -/
def chunkStrings (doc : String) (maxSize overlap : Nat) : List String :=
  (chunkWindow maxSize overlap doc.data).map List.asString

/-- Modelled from the spec: the configuration-time validation of §4.1 —
chunking fails fast with `InvalidConfiguration` when `overlap ≥ max_size`,
and otherwise produces the chunk sequence (never silently clamped). -/
def chunkDoc (doc : String) (maxSize overlap : Nat) : Except ChunkError (List String) :=
  if maxSize ≤ overlap then .error (.invalidConfiguration maxSize overlap)
  else .ok (chunkStrings doc maxSize overlap)

/-- The non-overlapping reassembly of a chunk sequence: the first chunk
whole, every later chunk with its leading `overlap` characters (shared with
its predecessor) removed. -/
def reassemble (overlap : Nat) : List (List Char) → List Char
  | [] => []
  | c :: cs => c ++ (cs.map (List.drop overlap)).flatten

/-- Modelled from the spec: `build(chunks, embed_fn)` of §4.2, as
`FAISS.from_documents(docs, embeddings)` performs it (not in the
repository's files) — embed every chunk in order; if any embedding call
fails the whole build aborts with that `EmbeddingError` and no index is
produced. -/
def buildIndex (chunks : List String)
    (embed : String → Except EmbeddingError (List ℤ)) :
    Except EmbeddingError (List Entry) :=
  match chunks with
  | [] => .ok []
  | c :: rest =>
    match embed c with
    | .error e => .error e
    | .ok v =>
      match buildIndex rest embed with
      | .error e => .error e
      | .ok es => .ok (⟨c, v⟩ :: es)

/-- Dot product of two vectors (missing coordinates count as zero). -/
def dot : List ℤ → List ℤ → ℤ
  | x :: xs, y :: ys => x * y + dot xs ys
  | _, _ => 0

/-- Squared Euclidean norm of a vector. -/
def normSq (v : List ℤ) : ℤ := dot v v

/-- Modelled from the spec: cosine similarity, the required metric of §4.2,
as a real number.  `Real.sqrt` makes this a specification-level function;
the executable search below compares scores through `scoreGtB`/`scoreEqB`,
which this file proves equivalent on positive-norm vectors. -/
noncomputable def cosineSim (u v : List ℤ) : ℝ :=
  ((dot u v : ℤ) : ℝ) / (Real.sqrt ((normSq u : ℤ) : ℝ) * Real.sqrt ((normSq v : ℤ) : ℝ))

/-- Decides `a / √x > b / √y` (for `x, y > 0`) by sign analysis and
cross-multiplied squares, entirely in integer arithmetic. -/
def scoreGtB (a x b y : ℤ) : Bool :=
  if 0 ≤ a then
    if 0 ≤ b then decide (b ^ 2 * x < a ^ 2 * y) else true
  else
    if 0 ≤ b then false else decide (a ^ 2 * y < b ^ 2 * x)

/-- Decides `a / √x = b / √y` (for `x, y > 0`) in integer arithmetic. -/
def scoreEqB (a x b y : ℤ) : Bool :=
  (decide (0 ≤ a) == decide (0 ≤ b)) && decide (a ^ 2 * y = b ^ 2 * x)

/-- `rankBefore q p₁ p₂`: in the ranking for query `q`, `p₁` comes no later
than `p₂` — its cosine score is strictly higher, or the scores are equal and
`p₁`'s insertion index is no larger (stable tie-break of §4.2). -/
def rankBefore (q : List ℤ) (p1 p2 : Nat × Entry) : Bool :=
  scoreGtB (dot q p1.2.vec) (normSq p1.2.vec) (dot q p2.2.vec) (normSq p2.2.vec) ||
    (scoreEqB (dot q p1.2.vec) (normSq p1.2.vec) (dot q p2.2.vec) (normSq p2.2.vec) &&
      decide (p1.1 ≤ p2.1))

/-- Insert an indexed entry into a ranked list, after every element that
ranks no later than it. -/
def insertRanked (q : List ℤ) (x : Nat × Entry) :
    List (Nat × Entry) → List (Nat × Entry)
  | [] => [x]
  | y :: ys => if rankBefore q y x then y :: insertRanked q x ys else x :: y :: ys

/-- Stable insertion sort of indexed entries by descending cosine score. -/
def sortRanked (q : List ℤ) : List (Nat × Entry) → List (Nat × Entry)
  | [] => []
  | x :: xs => insertRanked q x (sortRanked q xs)

/-- The entries of the index paired with their insertion indices, starting
at `n`. -/
def indexedFrom (n : Nat) : List Entry → List (Nat × Entry)
  | [] => []
  | e :: es => (n, e) :: indexedFrom (n + 1) es

/-- Modelled from the spec: `search(query_vector, k)` of §4.2 — a flat
linear scan that ranks every stored entry by cosine similarity to the query
(ties broken by original chunk insertion order) and returns the first `k`;
the scan itself lives inside FAISS, not in the repository's files. -/
def search (entries : List Entry) (q : List ℤ) (k : Nat) : List (Nat × Entry) :=
  (sortRanked q (indexedFrom 0 entries)).take k

/-- Modelled from the spec: `retrieve(query_text, k)` of §4.3 — delegate to
`search` and return chunk texts only (scores stay internal to ranking). -/
def retrieve (entries : List Entry) (q : List ℤ) (k : Nat) : List String :=
  (search entries q k).map (fun p => p.2.text)

/-- Python's `"\n\n".join`, as `retrieve_info` uses it. -/
def joinBlank : List String → String
  | [] => ""
  | [t] => t
  | t :: ts => t ++ "\n\n" ++ joinBlank ts

/-- The context-assembly step of `retrieve_info` (smit_rag.py lines 57–59):
join the first three chunk texts with a blank line; if the joined context is
the empty string, return the sentinel `"No relevant info found."`. -/
def assemble (texts : List String) : String :=
  let context := joinBlank (texts.take 3)
  if context = "" then "No relevant info found." else context

/-- The `retrieve_info` tool (smit_rag.py lines 50–59): fetch ranked chunk
texts from the retriever (`as_retriever()` returns four results by default)
and assemble the context. -/
def retrieveInfo (entries : List Entry) (q : List ℤ) : String :=
  assemble (retrieve entries q 4)

/-- The context assembler applied to ranked (text, score) pairs: the scores
are stripped before the texts reach `assemble`, mirroring how the retriever
hands `retrieve_info` documents without scores. -/
def assembleScored (ranked : List (String × ℚ)) : String :=
  assemble (ranked.map Prod.fst)

/-- The ranking relation of §4.2, stated with real cosine similarity:
`a` precedes `b` when its score is strictly higher, or the scores are equal
and `a`'s insertion index is no larger. -/
def RankRel (q : List ℤ) (a b : Nat × Entry) : Prop :=
  cosineSim q b.2.vec < cosineSim q a.2.vec ∨
    (cosineSim q a.2.vec = cosineSim q b.2.vec ∧ a.1 ≤ b.1)

/-- A stub embedder whose every call fails, for the C8 witness. -/
def embedFailing (s : String) : Except EmbeddingError (List ℤ) :=
  .error (.providerFailure s)

/-- A stub embedder mapping every chunk to the unit vector `[1]`, for the C9
witness. -/
def embedUnit (_s : String) : Except EmbeddingError (List ℤ) := .ok [1]

/-- The five-chunk index of the C2 scenario: five chunks embedded to the
five standard basis vectors, so that chunk #2's stored vector is
`[0, 1, 0, 0, 0]`. -/
def chunkFixture : List Entry :=
  [⟨"chunk one", [1, 0, 0, 0, 0]⟩, ⟨"chunk two", [0, 1, 0, 0, 0]⟩,
    ⟨"chunk three", [0, 0, 1, 0, 0]⟩, ⟨"chunk four", [0, 0, 0, 1, 0]⟩,
    ⟨"chunk five", [0, 0, 0, 0, 1]⟩]

/-! ## Helper lemmas -/

/-- A pair drawn from a list zipped with itself has equal components. -/
theorem fst_eq_snd_of_mem_zip_self {α : Type} (l : List α) :
    ∀ p ∈ l.zip l, p.1 = p.2 := by
  induction l with
  | nil => simp
  | cons a l ih =>
    intro p hp
    rcases List.mem_cons.mp hp with hp | hp
    · subst hp
      rfl
    · exact ih p hp

/-- `c1` and `c2` share exactly `overlap` characters: the trailing `overlap`
characters of `c1` are the leading `overlap` characters of `c2`, and `c2` is
long enough for that shared prefix to have the full `overlap` length. -/
def sharesOverlap (overlap : Nat) (c1 c2 : List Char) : Prop :=
  c1.drop (c1.length - overlap) = c2.take overlap ∧ overlap ≤ c2.length

/-- The chunk list is never empty; its head agrees with the source on the
first `overlap` characters and is at least `min maxSize s.length` long. -/
theorem chunkWindowAux_head (maxSize overlap fuel : Nat) (s : List Char) :
    ∃ c t, chunkWindowAux maxSize overlap fuel s = c :: t ∧
      c.take overlap = s.take overlap ∧ min maxSize s.length ≤ c.length := by
  cases fuel with
  | zero => exact ⟨s, [], rfl, rfl, min_le_right _ _⟩
  | succ fuel =>
    by_cases h : s.length ≤ maxSize ∨ maxSize - overlap = 0
    · exact ⟨s, [], by rw [chunkWindowAux, if_pos h], rfl, min_le_right _ _⟩
    · push_neg at h
      refine ⟨s.take maxSize, _,
        by rw [chunkWindowAux, if_neg (by push_neg; exact h)], ?_, ?_⟩
      · rw [List.take_take]
        congr 1
        omega
      · simp only [List.length_take]
        omega

/-- Every chunk the window model produces has length at most `maxSize`. -/
theorem chunkWindowAux_length_le (maxSize overlap : Nat) (hvalid : overlap < maxSize) :
    ∀ (fuel : Nat) (s : List Char), s.length ≤ fuel →
      ∀ c ∈ chunkWindowAux maxSize overlap fuel s, c.length ≤ maxSize := by
  intro fuel
  induction fuel with
  | zero =>
    intro s hs c hc
    rw [chunkWindowAux] at hc
    simp only [List.mem_singleton] at hc
    subst hc
    omega
  | succ fuel ih =>
    intro s hs c hc
    rw [chunkWindowAux] at hc
    by_cases h : s.length ≤ maxSize ∨ maxSize - overlap = 0
    · rw [if_pos h] at hc
      simp only [List.mem_singleton] at hc
      subst hc
      omega
    · rw [if_neg h] at hc
      push_neg at h
      rcases List.mem_cons.mp hc with hc | hc
      · subst hc
        simp only [List.length_take]
        omega
      · refine ih _ ?_ c hc
        simp only [List.length_drop]
        omega

/-- Consecutive chunks of the window model share exactly `overlap`
characters. -/
theorem chunkWindowAux_chain (maxSize overlap : Nat) (hvalid : overlap < maxSize) :
    ∀ (fuel : Nat) (s : List Char), s.length ≤ fuel →
      List.Chain' (sharesOverlap overlap) (chunkWindowAux maxSize overlap fuel s) := by
  intro fuel
  induction fuel with
  | zero =>
    intro s _
    rw [chunkWindowAux]
    exact List.chain'_singleton s
  | succ fuel ih =>
    intro s hs
    rw [chunkWindowAux]
    by_cases h : s.length ≤ maxSize ∨ maxSize - overlap = 0
    · rw [if_pos h]
      exact List.chain'_singleton s
    · rw [if_neg h]
      push_neg at h
      obtain ⟨hlen, -⟩ := h
      have hdrop : (s.drop (maxSize - overlap)).length ≤ fuel := by
        simp only [List.length_drop]
        omega
      obtain ⟨c, t, heq, htake, hclen⟩ :=
        chunkWindowAux_head maxSize overlap fuel (s.drop (maxSize - overlap))
      refine List.chain'_cons'.mpr ⟨?_, ih _ hdrop⟩
      intro y hy
      rw [heq] at hy
      simp only [List.head?_cons, Option.mem_def, Option.some.injEq] at hy
      subst hy
      constructor
      · have hl : (s.take maxSize).length = maxSize := by
          simp only [List.length_take]
          omega
        rw [hl, List.drop_take, htake]
        congr 1
        omega
      · simp only [List.length_drop] at hclen
        omega

/-- Reattaching the first `overlap` characters of the source to the
chunks' non-overlapping segments reconstructs the source. -/
theorem chunkWindowAux_reassemble (maxSize overlap : Nat) (hvalid : overlap < maxSize) :
    ∀ (fuel : Nat) (t : List Char), t.length ≤ fuel →
      t.take overlap ++
        ((chunkWindowAux maxSize overlap fuel t).map (List.drop overlap)).flatten = t := by
  intro fuel
  induction fuel with
  | zero =>
    intro t ht
    have : t = [] := List.eq_nil_of_length_eq_zero (by omega)
    subst this
    simp [chunkWindowAux]
  | succ fuel ih =>
    intro t ht
    rw [chunkWindowAux]
    by_cases h : t.length ≤ maxSize ∨ maxSize - overlap = 0
    · rw [if_pos h]
      simp only [List.map_cons, List.map_nil, List.flatten_cons, List.flatten_nil,
        List.append_nil]
      exact List.take_append_drop overlap t
    · rw [if_neg h]
      push_neg at h
      obtain ⟨hlen, hstep⟩ := h
      have hdrop : (t.drop (maxSize - overlap)).length ≤ fuel := by
        simp only [List.length_drop]
        omega
      have hih := ih (t.drop (maxSize - overlap)) hdrop
      simp only [List.map_cons, List.flatten_cons]
      calc t.take overlap ++ ((t.take maxSize).drop overlap ++
              ((chunkWindowAux maxSize overlap fuel
                (t.drop (maxSize - overlap))).map (List.drop overlap)).flatten)
          = (t.take overlap ++ (t.drop overlap).take (maxSize - overlap)) ++
              ((chunkWindowAux maxSize overlap fuel
                (t.drop (maxSize - overlap))).map (List.drop overlap)).flatten := by
            rw [List.drop_take, List.append_assoc]
        _ = t.take maxSize ++
              ((chunkWindowAux maxSize overlap fuel
                (t.drop (maxSize - overlap))).map (List.drop overlap)).flatten := by
            rw [← List.take_add]
            congr 2
            omega
        _ = (t.take (maxSize - overlap) ++
              (t.drop (maxSize - overlap)).take overlap) ++
              ((chunkWindowAux maxSize overlap fuel
                (t.drop (maxSize - overlap))).map (List.drop overlap)).flatten := by
            rw [← List.take_add]
            congr 2
            omega
        _ = t.take (maxSize - overlap) ++
              ((t.drop (maxSize - overlap)).take overlap ++
              ((chunkWindowAux maxSize overlap fuel
                (t.drop (maxSize - overlap))).map (List.drop overlap)).flatten) :=
            List.append_assoc _ _ _
        _ = t.take (maxSize - overlap) ++ t.drop (maxSize - overlap) := by rw [hih]
        _ = t := List.take_append_drop _ t

/-- Hard-splitting concatenates back to the unit: no characters are shared
between consecutive pieces and none are lost. -/
theorem chunkWindowAux_flatten_zero (maxSize : Nat) (h0 : 0 < maxSize) :
    ∀ (fuel : Nat) (s : List Char), s.length ≤ fuel →
      (chunkWindowAux maxSize 0 fuel s).flatten = s := by
  intro fuel
  induction fuel with
  | zero =>
    intro s hs
    have : s = [] := List.eq_nil_of_length_eq_zero (by omega)
    subst this
    rfl
  | succ fuel ih =>
    intro s hs
    rw [chunkWindowAux]
    by_cases h : s.length ≤ maxSize ∨ maxSize - 0 = 0
    · rw [if_pos h]
      simp
    · rw [if_neg h]
      push_neg at h
      simp only [List.flatten_cons, Nat.sub_zero]
      rw [ih (s.drop maxSize) (by simp only [List.length_drop]; omega)]
      exact List.take_append_drop maxSize s

/-- Every piece of the hard split but possibly the last has length exactly
`maxSize` — the unit is split at `maxSize` boundaries. -/
theorem chunkWindowAux_chain_full (maxSize overlap : Nat) :
    ∀ (fuel : Nat) (s : List Char),
      List.Chain' (fun c1 _ => c1.length = maxSize)
        (chunkWindowAux maxSize overlap fuel s) := by
  intro fuel
  induction fuel with
  | zero =>
    intro s
    rw [chunkWindowAux]
    exact List.chain'_singleton s
  | succ fuel ih =>
    intro s
    rw [chunkWindowAux]
    by_cases h : s.length ≤ maxSize ∨ maxSize - overlap = 0
    · rw [if_pos h]
      exact List.chain'_singleton s
    · rw [if_neg h]
      push_neg at h
      refine List.chain'_cons'.mpr ⟨?_, ih _⟩
      intro y _
      simp only [List.length_take]
      omega

/-! ## Claim theorems: configuration errors, assembly, build -/

/-- C3: chunking fails with an `InvalidConfiguration` error whenever
`overlap ≥ max_size`, at configuration time; for every valid pair the chunk
sequence is produced, never silently clamped. -/
theorem chunkDoc_invalid_configuration (doc : String) (maxSize overlap : Nat) :
    (maxSize ≤ overlap →
      chunkDoc doc maxSize overlap = .error (.invalidConfiguration maxSize overlap)) ∧
    (overlap < maxSize →
      chunkDoc doc maxSize overlap = .ok (chunkStrings doc maxSize overlap)) := by
  constructor
  · intro h
    rw [chunkDoc, if_pos h]
  · intro h
    rw [chunkDoc, if_neg (by omega)]

/-- C3 witness: `max_size = 2`, `overlap = 5` is rejected with
`InvalidConfiguration`. -/
theorem chunkDoc_invalid_configuration_witness :
    chunkDoc "ab" 2 5 = .error (.invalidConfiguration 2 5) :=
  (chunkDoc_invalid_configuration "ab" 2 5).1 (by decide)

/-- C4: with valid parameters (`overlap < max_size`) every chunk has length
at most `max_size` and each pair of consecutive chunks shares exactly
`overlap` characters; an atomic unit longer than `max_size` is hard-split at
`max_size` — pieces of length `max_size` (except possibly the last), bound
by at most `max_size`, concatenating back to the unit with no overlap. -/
theorem chunking_size_overlap_hardsplit (doc : List Char) (maxSize overlap : Nat)
    (h : overlap < maxSize) :
    (∀ c ∈ chunkWindow maxSize overlap doc, c.length ≤ maxSize) ∧
    List.Chain' (sharesOverlap overlap) (chunkWindow maxSize overlap doc) ∧
    (∀ unit : List Char, maxSize < unit.length →
      (∀ c ∈ hardSplit maxSize unit, c.length ≤ maxSize) ∧
      (hardSplit maxSize unit).flatten = unit ∧
      List.Chain' (fun c1 _ => c1.length = maxSize) (hardSplit maxSize unit)) := by
  refine ⟨chunkWindowAux_length_le maxSize overlap h doc.length doc le_rfl,
    chunkWindowAux_chain maxSize overlap h doc.length doc le_rfl, ?_⟩
  intro unit _
  have h0 : 0 < maxSize := by omega
  exact ⟨chunkWindowAux_length_le maxSize 0 h0 unit.length unit le_rfl,
    chunkWindowAux_flatten_zero maxSize h0 unit.length unit le_rfl,
    chunkWindowAux_chain_full maxSize 0 unit.length unit⟩

/-- C4 witness: chunking `"abcdef"` with `max_size = 3`, `overlap = 1`
produces consecutive chunks sharing exactly one character. -/
theorem chunking_size_overlap_hardsplit_witness :
    List.Chain' (sharesOverlap 1) (chunkWindow 3 1 "abcdef".data) :=
  (chunking_size_overlap_hardsplit "abcdef".data 3 1 (by decide)).2.1

/-- C5: for every document and valid parameters, concatenating the
non-overlapping segments of the chunk sequence (the first chunk whole, each
later chunk without its leading `overlap` shared characters) reconstructs
the document exactly. -/
theorem chunking_roundtrip (doc : List Char) (maxSize overlap : Nat)
    (h : overlap < maxSize) :
    reassemble overlap (chunkWindow maxSize overlap doc) = doc := by
  obtain ⟨c, t, heq, htake, -⟩ := chunkWindowAux_head maxSize overlap doc.length doc
  have hmain := chunkWindowAux_reassemble maxSize overlap h doc.length doc le_rfl
  rw [chunkWindow, heq]
  rw [heq] at hmain
  simp only [List.map_cons, List.flatten_cons] at hmain
  simp only [reassemble]
  calc c ++ (t.map (List.drop overlap)).flatten
      = (c.take overlap ++ c.drop overlap) ++ (t.map (List.drop overlap)).flatten := by
        rw [List.take_append_drop]
    _ = c.take overlap ++ (c.drop overlap ++ (t.map (List.drop overlap)).flatten) :=
        List.append_assoc _ _ _
    _ = doc.take overlap ++ (c.drop overlap ++ (t.map (List.drop overlap)).flatten) := by
        rw [htake]
    _ = doc := hmain

/-- C5 witness: the chunks of `"abcdef"` under `max_size = 3`, `overlap = 1`
reassemble to `"abcdef"`. -/
theorem chunking_roundtrip_witness :
    reassemble 1 (chunkWindow 3 1 "abcdef".data) = "abcdef".data :=
  chunking_roundtrip "abcdef".data 3 1 (by decide)

/-- C6 counterexample: the sentinel is not distinct from every assembled
context — assembling the non-empty chunk sequence whose single text equals
the sentinel returns the very sentinel string. -/
theorem assemble_sentinel_collision :
    assemble ["No relevant info found."] = "No relevant info found." ∧
    (["No relevant info found."] : List String) ≠ [] := by
  constructor
  · rfl
  · simp

/-- C6 (amended): `retrieve` on an empty index returns the empty sequence
rather than an error, and `assemble []` returns the sentinel
`"No relevant info found."`, never an exception. -/
theorem retrieve_empty_and_assemble_sentinel :
    (∀ (q : List ℤ) (k : Nat), retrieve [] q k = []) ∧
    assemble [] = "No relevant info found." := by
  constructor
  · intro q k
    simp [retrieve, search, sortRanked, indexedFrom]
  · rfl

/-- C7: the assembler concatenates at most three chunk texts, separated by a
blank line, preserving rank order (best match first); its output is
determined by the chunk texts alone — the similarity scores are never
exposed to it. -/
theorem assembler_rank_order_scores_hidden (ranked : List (String × ℚ)) :
    (joinBlank ((ranked.map Prod.fst).take 3) ≠ "" →
      assembleScored ranked = joinBlank ((ranked.map Prod.fst).take 3)) ∧
    ((ranked.map Prod.fst).take 3).length ≤ 3 ∧
    (∀ t1 t2 ts, joinBlank (t1 :: t2 :: ts) = t1 ++ "\n\n" ++ joinBlank (t2 :: ts)) ∧
    (∀ ranked2 : List (String × ℚ), ranked.map Prod.fst = ranked2.map Prod.fst →
      assembleScored ranked = assembleScored ranked2) := by
  refine ⟨?_, ?_, ?_, ?_⟩
  · intro h
    simp only [assembleScored, assemble]
    rw [if_neg h]
  · simp only [List.length_take]
    omega
  · intro t1 t2 ts
    rfl
  · intro ranked2 h
    simp only [assembleScored, h]

/-- C7 witness: a single ranked chunk assembles to its own text. -/
theorem assembler_rank_order_scores_hidden_witness :
    assembleScored [("campus info", (1 : ℚ))] = "campus info" :=
  (assembler_rank_order_scores_hidden [("campus info", 1)]).1 (by decide)

/-- C8: if any embedding call fails, the build returns an `EmbeddingError`
and aborts as a whole — an `ok` index exists only when every chunk embedded,
and it then holds one entry per chunk; the error returned is the failure of
an actual embedding call, propagated without retry. -/
theorem buildIndex_aborts_on_embed_failure (chunks : List String)
    (embed : String → Except EmbeddingError (List ℤ)) :
    ((∃ c ∈ chunks, ∃ e, embed c = .error e) →
      ∃ e, buildIndex chunks embed = .error e) ∧
    (∀ e, buildIndex chunks embed = .error e → ∃ c ∈ chunks, embed c = .error e) ∧
    (∀ idx, buildIndex chunks embed = .ok idx →
      (∀ c ∈ chunks, ∃ v, embed c = .ok v) ∧ idx.length = chunks.length) := by
  induction chunks with
  | nil =>
    refine ⟨?_, ?_, ?_⟩
    · rintro ⟨c, hc, -⟩
      exact absurd hc (List.not_mem_nil c)
    · intro e he
      simp [buildIndex] at he
    · intro idx h
      simp only [buildIndex, Except.ok.injEq] at h
      simp [← h]
  | cons c rest ih =>
    refine ⟨?_, ?_, ?_⟩
    · rintro ⟨c', hc', e, he⟩
      rcases h1 : embed c with e0 | v
      · exact ⟨e0, by simp [buildIndex, h1]⟩
      · rcases List.mem_cons.mp hc' with hc' | hc'
        · subst hc'
          rw [h1] at he
          cases he
        · obtain ⟨e1, he1⟩ := ih.1 ⟨c', hc', e, he⟩
          exact ⟨e1, by simp [buildIndex, h1, he1]⟩
    · intro e he
      rw [buildIndex] at he
      rcases h1 : embed c with e0 | v
      · rw [h1] at he
        cases he
        exact ⟨c, List.mem_cons_self c rest, h1⟩
      · rw [h1] at he
        rcases h2 : buildIndex rest embed with e1 | es
        · rw [h2] at he
          cases he
          obtain ⟨c', hc', he'⟩ := ih.2.1 e h2
          exact ⟨c', List.mem_cons_of_mem c hc', he'⟩
        · rw [h2] at he
          cases he
    · intro idx h
      rw [buildIndex] at h
      rcases h1 : embed c with e0 | v
      · rw [h1] at h
        cases h
      · rw [h1] at h
        rcases h2 : buildIndex rest embed with e1 | es
        · rw [h2] at h
          cases h
        · rw [h2] at h
          cases h
          obtain ⟨hall, hlen⟩ := ih.2.2 es h2
          refine ⟨?_, by simp [hlen]⟩
          intro c' hc'
          rcases List.mem_cons.mp hc' with hc' | hc'
          · subst hc'
            exact ⟨v, h1⟩
          · exact hall c' hc'

/-- C8 witness: with a failing embedder, building from one chunk returns an
`EmbeddingError`. -/
theorem buildIndex_aborts_on_embed_failure_witness :
    ∃ e, buildIndex ["campus"] embedFailing = .error e :=
  (buildIndex_aborts_on_embed_failure ["campus"] embedFailing).1
    ⟨"campus", List.mem_cons_self "campus" [], .providerFailure "campus", rfl⟩

/-- C9: chunking is deterministic — the same document and parameters give
the same chunk sequence — and two successful builds of the same document
with the same parameters and embedder yield indexes of equal length whose
zipped entries are pairwise equal. -/
theorem chunking_build_deterministic (doc : String) (maxSize overlap : Nat)
    (embed : String → Except EmbeddingError (List ℤ)) :
    chunkStrings doc maxSize overlap = chunkStrings doc maxSize overlap ∧
    ∀ idx1 idx2,
      buildIndex (chunkStrings doc maxSize overlap) embed = .ok idx1 →
      buildIndex (chunkStrings doc maxSize overlap) embed = .ok idx2 →
      idx1.length = idx2.length ∧ ∀ p ∈ idx1.zip idx2, p.1 = p.2 := by
  refine ⟨rfl, ?_⟩
  intro idx1 idx2 h1 h2
  rw [h1] at h2
  cases h2
  exact ⟨rfl, fst_eq_snd_of_mem_zip_self idx1⟩

/-- C9 witness: a concrete double build of the same document agrees entrywise. -/
theorem chunking_build_deterministic_witness :
    ∃ idx, buildIndex (chunkStrings "abcd" 2 1) embedUnit = .ok idx ∧
      idx.length = idx.length ∧ ∀ p ∈ idx.zip idx, p.1 = p.2 := by
  refine ⟨[⟨"ab", [1]⟩, ⟨"bc", [1]⟩, ⟨"cd", [1]⟩], rfl, rfl, ?_⟩
  exact ((chunking_build_deterministic "abcd" 2 1 embedUnit).2 _ _ rfl rfl).2

/-- C10 counterexample: `retrieve_info` can return the sentinel string even
though the blank-line join of the retrieved chunk texts is non-empty — a
stored chunk whose text equals the sentinel is retrieved and joined, and the
joined context is the sentinel itself. -/
theorem retrieveInfo_sentinel_collision :
    retrieveInfo [⟨"No relevant info found.", [1]⟩] [1] = "No relevant info found." ∧
    joinBlank ((retrieve [⟨"No relevant info found.", [1]⟩] [1] 4).take 3) ≠ "" := by
  constructor
  · rfl
  · decide

/-- C10 (amended): `retrieve_info` never returns the empty string — it
returns the sentinel `"No relevant info found."` when the blank-line join of
the at-most-three retrieved chunk texts is empty, and otherwise that
non-empty joined context (whose value may coincide with the sentinel). -/
theorem retrieveInfo_never_empty (entries : List Entry) (q : List ℤ) :
    retrieveInfo entries q ≠ "" ∧
    (joinBlank ((retrieve entries q 4).take 3) = "" →
      retrieveInfo entries q = "No relevant info found.") ∧
    (joinBlank ((retrieve entries q 4).take 3) ≠ "" →
      retrieveInfo entries q = joinBlank ((retrieve entries q 4).take 3)) := by
  refine ⟨?_, ?_, ?_⟩
  · by_cases h : joinBlank ((retrieve entries q 4).take 3) = ""
    · simp only [retrieveInfo, assemble]
      rw [if_pos h]
      decide
    · simp only [retrieveInfo, assemble]
      rw [if_neg h]
      exact h
  · intro h
    simp only [retrieveInfo, assemble]
    rw [if_pos h]
  · intro h
    simp only [retrieveInfo, assemble]
    rw [if_neg h]

/-- C10 witness: on a one-chunk index the joined context is that chunk's
text, which is returned and is non-empty. -/
theorem retrieveInfo_never_empty_witness :
    retrieveInfo [⟨"timings", [1]⟩] [1] ≠ "" ∧
    (joinBlank ((retrieve [⟨"timings", [1]⟩] [1] 4).take 3) = "" →
      retrieveInfo [⟨"timings", [1]⟩] [1] = "No relevant info found.") ∧
    (joinBlank ((retrieve [⟨"timings", [1]⟩] [1] 4).take 3) ≠ "" →
      retrieveInfo [⟨"timings", [1]⟩] [1] =
        joinBlank ((retrieve [⟨"timings", [1]⟩] [1] 4).take 3)) :=
  retrieveInfo_never_empty [⟨"timings", [1]⟩] [1]

/-! ## Ranking: the rational comparators agree with real cosine similarity -/

/-- `(b √x)² = b² x`: the square of a numerator scaled by a square root. -/
theorem mul_sqrt_self (b x : ℝ) (hx : 0 ≤ x) :
    (b * Real.sqrt x) * (b * Real.sqrt x) = b ^ 2 * x := by
  rw [mul_mul_mul_comm, Real.mul_self_sqrt hx]
  ring

/-- For nonnegative numerators, comparing `b / √y` with `a / √x` is
comparing the cross-multiplied squares. -/
theorem div_sqrt_lt_iff (a b x y : ℝ) (ha : 0 ≤ a) (hb : 0 ≤ b)
    (hx : 0 < x) (hy : 0 < y) :
    b / Real.sqrt y < a / Real.sqrt x ↔ b ^ 2 * x < a ^ 2 * y := by
  have hsx : 0 < Real.sqrt x := Real.sqrt_pos.mpr hx
  have hsy : 0 < Real.sqrt y := Real.sqrt_pos.mpr hy
  rw [div_lt_div_iff₀ hsy hsx]
  constructor
  · intro h
    calc b ^ 2 * x = (b * Real.sqrt x) * (b * Real.sqrt x) :=
          (mul_sqrt_self b x hx.le).symm
      _ < (a * Real.sqrt y) * (a * Real.sqrt y) :=
          mul_self_lt_mul_self (mul_nonneg hb hsx.le) h
      _ = a ^ 2 * y := mul_sqrt_self a y hy.le
  · intro h
    by_contra hcon
    push_neg at hcon
    have hsq : (a * Real.sqrt y) * (a * Real.sqrt y) ≤
        (b * Real.sqrt x) * (b * Real.sqrt x) :=
      mul_self_le_mul_self (mul_nonneg ha hsy.le) hcon
    have h2 : a ^ 2 * y ≤ b ^ 2 * x := by
      calc a ^ 2 * y = (a * Real.sqrt y) * (a * Real.sqrt y) :=
            (mul_sqrt_self a y hy.le).symm
        _ ≤ (b * Real.sqrt x) * (b * Real.sqrt x) := hsq
        _ = b ^ 2 * x := mul_sqrt_self b x hx.le
    exact absurd h (not_lt.mpr h2)

/-- For nonnegative numerators, `a / √x = b / √y` is the equality of the
cross-multiplied squares. -/
theorem div_sqrt_eq_iff (a b x y : ℝ) (ha : 0 ≤ a) (hb : 0 ≤ b)
    (hx : 0 < x) (hy : 0 < y) :
    a / Real.sqrt x = b / Real.sqrt y ↔ a ^ 2 * y = b ^ 2 * x := by
  have hsx : 0 < Real.sqrt x := Real.sqrt_pos.mpr hx
  have hsy : 0 < Real.sqrt y := Real.sqrt_pos.mpr hy
  rw [div_eq_div_iff hsx.ne' hsy.ne']
  constructor
  · intro h
    calc a ^ 2 * y = (a * Real.sqrt y) * (a * Real.sqrt y) :=
          (mul_sqrt_self a y hy.le).symm
      _ = (b * Real.sqrt x) * (b * Real.sqrt x) := by rw [h]
      _ = b ^ 2 * x := mul_sqrt_self b x hx.le
  · intro h
    have h2 : (a * Real.sqrt y) * (a * Real.sqrt y) =
        (b * Real.sqrt x) * (b * Real.sqrt x) := by
      calc (a * Real.sqrt y) * (a * Real.sqrt y) = a ^ 2 * y :=
            mul_sqrt_self a y hy.le
        _ = b ^ 2 * x := h
        _ = (b * Real.sqrt x) * (b * Real.sqrt x) := (mul_sqrt_self b x hx.le).symm
    exact (mul_self_inj (mul_nonneg ha hsy.le) (mul_nonneg hb hsx.le)).mp h2

/-- The rational comparator `scoreGtB` decides the strict comparison of the
real scores `a / √x` and `b / √y`. -/
theorem scoreGtB_iff (a x b y : ℤ) (hx : 0 < x) (hy : 0 < y) :
    scoreGtB a x b y = true ↔
      (b : ℝ) / Real.sqrt (y : ℝ) < (a : ℝ) / Real.sqrt (x : ℝ) := by
  have hx' : (0 : ℝ) < (x : ℝ) := by exact_mod_cast hx
  have hy' : (0 : ℝ) < (y : ℝ) := by exact_mod_cast hy
  rw [scoreGtB]
  by_cases ha : 0 ≤ a
  · by_cases hb : 0 ≤ b
    · rw [if_pos ha, if_pos hb, decide_eq_true_iff,
        div_sqrt_lt_iff (a : ℝ) (b : ℝ) (x : ℝ) (y : ℝ) (by exact_mod_cast ha)
          (by exact_mod_cast hb) hx' hy']
      norm_cast
    · rw [if_pos ha, if_neg hb]
      have hb' : (b : ℝ) < 0 := by
        have := not_le.mp hb
        exact_mod_cast this
      refine iff_of_true rfl ?_
      calc (b : ℝ) / Real.sqrt (y : ℝ) < 0 :=
            div_neg_of_neg_of_pos hb' (Real.sqrt_pos.mpr hy')
        _ ≤ (a : ℝ) / Real.sqrt (x : ℝ) :=
            div_nonneg (by exact_mod_cast ha) (Real.sqrt_nonneg _)
  · by_cases hb : 0 ≤ b
    · rw [if_neg ha, if_pos hb]
      have ha' : (a : ℝ) < 0 := by
        have := not_le.mp ha
        exact_mod_cast this
      refine iff_of_false Bool.false_ne_true (not_lt.mpr ?_)
      calc (a : ℝ) / Real.sqrt (x : ℝ) ≤ 0 :=
            le_of_lt (div_neg_of_neg_of_pos ha' (Real.sqrt_pos.mpr hx'))
        _ ≤ (b : ℝ) / Real.sqrt (y : ℝ) :=
            div_nonneg (by exact_mod_cast hb) (Real.sqrt_nonneg _)
    · rw [if_neg ha, if_neg hb, decide_eq_true_iff]
      have ha' : (0 : ℝ) ≤ -(a : ℝ) := by
        have := le_of_lt (not_le.mp ha)
        have : (a : ℝ) ≤ 0 := by exact_mod_cast this
        linarith
      have hb' : (0 : ℝ) ≤ -(b : ℝ) := by
        have := le_of_lt (not_le.mp hb)
        have : (b : ℝ) ≤ 0 := by exact_mod_cast this
        linarith
      rw [show ((b : ℝ) / Real.sqrt (y : ℝ) < (a : ℝ) / Real.sqrt (x : ℝ)) ↔
          (-(a : ℝ) / Real.sqrt (x : ℝ) < -(b : ℝ) / Real.sqrt (y : ℝ)) by
        rw [neg_div, neg_div, neg_lt_neg_iff]]
      rw [div_sqrt_lt_iff (-(b : ℝ)) (-(a : ℝ)) (y : ℝ) (x : ℝ) hb' ha' hy' hx']
      rw [neg_pow, neg_pow]
      norm_num
      norm_cast

/-- The rational comparator `scoreEqB` decides the equality of the real
scores `a / √x` and `b / √y`. -/
theorem scoreEqB_iff (a x b y : ℤ) (hx : 0 < x) (hy : 0 < y) :
    scoreEqB a x b y = true ↔
      (a : ℝ) / Real.sqrt (x : ℝ) = (b : ℝ) / Real.sqrt (y : ℝ) := by
  have hx' : (0 : ℝ) < (x : ℝ) := by exact_mod_cast hx
  have hy' : (0 : ℝ) < (y : ℝ) := by exact_mod_cast hy
  rw [scoreEqB, Bool.and_eq_true, beq_iff_eq, decide_eq_decide, decide_eq_true_iff]
  by_cases ha : 0 ≤ a
  · by_cases hb : 0 ≤ b
    · rw [div_sqrt_eq_iff (a : ℝ) (b : ℝ) (x : ℝ) (y : ℝ) (by exact_mod_cast ha)
        (by exact_mod_cast hb) hx' hy']
      constructor
      · intro h
        exact_mod_cast h.2
      · intro h
        exact ⟨iff_of_true ha hb, by exact_mod_cast h⟩
    · have hb' : (b : ℝ) < 0 := by
        have := not_le.mp hb
        exact_mod_cast this
      constructor
      · intro h
        exact absurd (h.1.mp ha) hb
      · intro h
        have hlt : (b : ℝ) / Real.sqrt (y : ℝ) < (a : ℝ) / Real.sqrt (x : ℝ) :=
          lt_of_lt_of_le (div_neg_of_neg_of_pos hb' (Real.sqrt_pos.mpr hy'))
            (div_nonneg (by exact_mod_cast ha) (Real.sqrt_nonneg _))
        exact absurd h.symm (ne_of_lt hlt)
  · by_cases hb : 0 ≤ b
    · have ha' : (a : ℝ) < 0 := by
        have := not_le.mp ha
        exact_mod_cast this
      constructor
      · intro h
        exact absurd (h.1.mpr hb) ha
      · intro h
        have hlt : (a : ℝ) / Real.sqrt (x : ℝ) < (b : ℝ) / Real.sqrt (y : ℝ) :=
          lt_of_lt_of_le (div_neg_of_neg_of_pos ha' (Real.sqrt_pos.mpr hx'))
            (div_nonneg (by exact_mod_cast hb) (Real.sqrt_nonneg _))
        exact absurd h (ne_of_lt hlt)
    · have ha' : (0 : ℝ) ≤ -(a : ℝ) := by
        have h1 : (a : ℝ) ≤ 0 := by exact_mod_cast le_of_lt (not_le.mp ha)
        linarith
      have hb' : (0 : ℝ) ≤ -(b : ℝ) := by
        have h1 : (b : ℝ) ≤ 0 := by exact_mod_cast le_of_lt (not_le.mp hb)
        linarith
      rw [show ((a : ℝ) / Real.sqrt (x : ℝ) = (b : ℝ) / Real.sqrt (y : ℝ)) ↔
          (-(a : ℝ) / Real.sqrt (x : ℝ) = -(b : ℝ) / Real.sqrt (y : ℝ)) by
        rw [neg_div, neg_div, neg_inj]]
      rw [div_sqrt_eq_iff (-(a : ℝ)) (-(b : ℝ)) (x : ℝ) (y : ℝ) ha' hb' hx' hy']
      rw [neg_pow, neg_pow]
      norm_num
      constructor
      · intro h
        exact_mod_cast h.2
      · intro h
        exact ⟨iff_of_false ha hb, by exact_mod_cast h⟩

/-- Dividing both scores by the positive factor `√(normSq q)` reduces a
cosine-similarity comparison to a `d / √(normSq v)` comparison. -/
theorem cosineSim_eq_div_div (q v : List ℤ) :
    cosineSim q v = ((dot q v : ℤ) : ℝ) / Real.sqrt ((normSq v : ℤ) : ℝ) /
      Real.sqrt ((normSq q : ℤ) : ℝ) := by
  rw [cosineSim, div_div, mul_comm]

/-- The comparator `scoreGtB` on the stored rational data decides the strict
cosine-similarity comparison, for positive-norm vectors. -/
theorem cosineSim_lt_iff (q v1 v2 : List ℤ) (hq : 0 < normSq q)
    (h1 : 0 < normSq v1) (h2 : 0 < normSq v2) :
    cosineSim q v2 < cosineSim q v1 ↔
      scoreGtB (dot q v1) (normSq v1) (dot q v2) (normSq v2) = true := by
  have hsq : 0 < Real.sqrt ((normSq q : ℤ) : ℝ) :=
    Real.sqrt_pos.mpr (by exact_mod_cast hq)
  rw [scoreGtB_iff _ _ _ _ h1 h2, cosineSim_eq_div_div, cosineSim_eq_div_div,
    div_lt_div_iff_of_pos_right hsq]

/-- The comparator `scoreEqB` on the stored rational data decides
cosine-similarity equality, for positive-norm vectors. -/
theorem cosineSim_eq_iff (q v1 v2 : List ℤ) (hq : 0 < normSq q)
    (h1 : 0 < normSq v1) (h2 : 0 < normSq v2) :
    cosineSim q v1 = cosineSim q v2 ↔
      scoreEqB (dot q v1) (normSq v1) (dot q v2) (normSq v2) = true := by
  have hsq : 0 < Real.sqrt ((normSq q : ℤ) : ℝ) :=
    Real.sqrt_pos.mpr (by exact_mod_cast hq)
  rw [scoreEqB_iff _ _ _ _ h1 h2, cosineSim_eq_div_div, cosineSim_eq_div_div,
    div_left_inj' hsq.ne']

/-- The executable comparator `rankBefore` decides the ranking relation
`RankRel`, for positive-norm vectors. -/
theorem rankBefore_iff (q : List ℤ) (p1 p2 : Nat × Entry) (hq : 0 < normSq q)
    (h1 : 0 < normSq p1.2.vec) (h2 : 0 < normSq p2.2.vec) :
    rankBefore q p1 p2 = true ↔ RankRel q p1 p2 := by
  rw [rankBefore, RankRel, Bool.or_eq_true, Bool.and_eq_true, decide_eq_true_iff,
    ← cosineSim_lt_iff q p1.2.vec p2.2.vec hq h1 h2,
    ← cosineSim_eq_iff q p1.2.vec p2.2.vec hq h1 h2]

/-- When the comparator rejects `p1` before `p2`, it accepts `p2` before
`p1`: the ranking is total on positive-norm entries. -/
theorem rankBefore_total (q : List ℤ) (p1 p2 : Nat × Entry) (hq : 0 < normSq q)
    (h1 : 0 < normSq p1.2.vec) (h2 : 0 < normSq p2.2.vec)
    (h : rankBefore q p1 p2 = false) : RankRel q p2 p1 := by
  have hnot : ¬ RankRel q p1 p2 := by
    rw [← rankBefore_iff q p1 p2 hq h1 h2, h]
    exact Bool.false_ne_true
  rw [RankRel] at hnot
  push_neg at hnot
  obtain ⟨hlt, him⟩ := hnot
  rcases lt_trichotomy (cosineSim q p1.2.vec) (cosineSim q p2.2.vec) with hc | hc | hc
  · exact Or.inl hc
  · exact Or.inr ⟨hc.symm, le_of_lt (him hc)⟩
  · exact absurd hc (not_lt.mpr hlt)

/-- The ranking relation is transitive. -/
theorem RankRel_trans (q : List ℤ) (a b c : Nat × Entry)
    (hab : RankRel q a b) (hbc : RankRel q b c) : RankRel q a c := by
  rcases hab with hab | ⟨hab, hab'⟩ <;> rcases hbc with hbc | ⟨hbc, hbc'⟩
  · exact Or.inl (lt_trans hbc hab)
  · exact Or.inl (by rw [← hbc]; exact hab)
  · exact Or.inl (by rw [hab]; exact hbc)
  · exact Or.inr ⟨hab.trans hbc, le_trans hab' hbc'⟩

/-- Membership in an insertion is membership in the inserted element or the
original list. -/
theorem mem_insertRanked (q : List ℤ) (x z : Nat × Entry) :
    ∀ l, z ∈ insertRanked q x l ↔ z = x ∨ z ∈ l := by
  intro l
  induction l with
  | nil =>
    rw [insertRanked]
    simp
  | cons y ys ih =>
    rw [insertRanked]
    by_cases h : rankBefore q y x
    · rw [if_pos h]
      simp only [List.mem_cons, ih]
      tauto
    · rw [if_neg h]
      simp only [List.mem_cons]

/-- Insertion permutes consing. -/
theorem perm_insertRanked (q : List ℤ) (x : Nat × Entry) :
    ∀ l, (insertRanked q x l).Perm (x :: l) := by
  intro l
  induction l with
  | nil => exact List.Perm.refl [x]
  | cons y ys ih =>
    rw [insertRanked]
    by_cases h : rankBefore q y x
    · rw [if_pos h]
      exact (List.Perm.cons y ih).trans (List.Perm.swap x y ys)
    · rw [if_neg h]

/-- The sort permutes its input. -/
theorem perm_sortRanked (q : List ℤ) : ∀ l, (sortRanked q l).Perm l := by
  intro l
  induction l with
  | nil => exact List.Perm.refl []
  | cons x xs ih =>
    rw [sortRanked]
    exact (perm_insertRanked q x _).trans (List.Perm.cons x ih)

/-- Inserting into a ranked list keeps it ranked, for positive-norm entries. -/
theorem pairwise_insertRanked (q : List ℤ) (x : Nat × Entry) (hq : 0 < normSq q)
    (hx : 0 < normSq x.2.vec) :
    ∀ l, (∀ y ∈ l, 0 < normSq y.2.vec) → List.Pairwise (RankRel q) l →
      List.Pairwise (RankRel q) (insertRanked q x l) := by
  intro l
  induction l with
  | nil =>
    intro _ _
    rw [insertRanked]
    exact List.pairwise_singleton _ x
  | cons y ys ih =>
    intro hl hp
    have hy : 0 < normSq y.2.vec := hl y (List.mem_cons_self y ys)
    have hys : ∀ z ∈ ys, 0 < normSq z.2.vec :=
      fun z hz => hl z (List.mem_cons_of_mem y hz)
    rw [List.pairwise_cons] at hp
    obtain ⟨hyz, hp'⟩ := hp
    rw [insertRanked]
    by_cases h : rankBefore q y x
    · rw [if_pos h]
      rw [List.pairwise_cons]
      refine ⟨?_, ih hys hp'⟩
      intro z hz
      rcases (mem_insertRanked q x z ys).mp hz with hz | hz
      · subst hz
        exact (rankBefore_iff q y z hq hy hx).mp h
      · exact hyz z hz
    · rw [if_neg h]
      have hxy : RankRel q x y :=
        rankBefore_total q y x hq hy hx (Bool.eq_false_iff.mpr h)
      rw [List.pairwise_cons]
      refine ⟨?_, List.pairwise_cons.mpr ⟨hyz, hp'⟩⟩
      intro z hz
      rcases List.mem_cons.mp hz with hz | hz
      · subst hz
        exact hxy
      · exact RankRel_trans q x y z hxy (hyz z hz)

/-- The sort produces a ranked list, for positive-norm entries. -/
theorem pairwise_sortRanked (q : List ℤ) (hq : 0 < normSq q) :
    ∀ l, (∀ y ∈ l, 0 < normSq y.2.vec) →
      List.Pairwise (RankRel q) (sortRanked q l) := by
  intro l
  induction l with
  | nil =>
    intro _
    exact List.Pairwise.nil
  | cons x xs ih =>
    intro hl
    rw [sortRanked]
    refine pairwise_insertRanked q x hq (hl x (List.mem_cons_self x xs)) _ ?_ ?_
    · intro y hy
      exact hl y (List.mem_cons_of_mem x ((perm_sortRanked q xs).mem_iff.mp hy))
    · exact ih fun y hy => hl y (List.mem_cons_of_mem x hy)

/-- Enumeration preserves length. -/
theorem indexedFrom_length (l : List Entry) :
    ∀ n, (indexedFrom n l).length = l.length := by
  induction l with
  | nil =>
    intro n
    rfl
  | cons e es ih =>
    intro n
    rw [indexedFrom, List.length_cons, ih (n + 1), List.length_cons]

/-- The entry of an enumerated pair is an entry of the index. -/
theorem indexedFrom_snd_mem (l : List Entry) :
    ∀ n (p : Nat × Entry), p ∈ indexedFrom n l → p.2 ∈ l := by
  induction l with
  | nil =>
    intro n p hp
    rw [indexedFrom] at hp
    exact absurd hp (List.not_mem_nil p)
  | cons e es ih =>
    intro n p hp
    rw [indexedFrom] at hp
    rcases List.mem_cons.mp hp with hp | hp
    · subst hp
      exact List.mem_cons_self e es
    · exact List.mem_cons_of_mem e (ih (n + 1) p hp)

/-- Every enumerated index is at least the starting index. -/
theorem indexedFrom_fst_ge (l : List Entry) :
    ∀ n (p : Nat × Entry), p ∈ indexedFrom n l → n ≤ p.1 := by
  induction l with
  | nil =>
    intro n p hp
    rw [indexedFrom] at hp
    exact absurd hp (List.not_mem_nil p)
  | cons e es ih =>
    intro n p hp
    rw [indexedFrom] at hp
    rcases List.mem_cons.mp hp with hp | hp
    · subst hp
      exact le_rfl
    · exact le_of_lt (ih (n + 1) p hp)

/-- Enumeration indices are strictly increasing, hence pairwise distinct. -/
theorem indexedFrom_pairwise (l : List Entry) :
    ∀ n, List.Pairwise (fun a b : Nat × Entry => a.1 < b.1) (indexedFrom n l) := by
  induction l with
  | nil =>
    intro n
    rw [indexedFrom]
    exact List.Pairwise.nil
  | cons e es ih =>
    intro n
    rw [indexedFrom, List.pairwise_cons]
    refine ⟨?_, ih (n + 1)⟩
    intro p hp
    have := indexedFrom_fst_ge es (n + 1) p hp
    omega

/-- C1: on an index of `n` entries with positive-norm vectors and a
positive-norm query, `search(v, k)` returns exactly `min k n` results,
ordered by non-increasing cosine-similarity score with ties between equal
scores broken by ascending original insertion index. -/
theorem search_count_sorted (entries : List Entry) (q : List ℤ) (k : Nat)
    (hq : 0 < normSq q) (he : ∀ e ∈ entries, 0 < normSq e.vec) :
    (search entries q k).length = min k entries.length ∧
    List.Pairwise (fun a b : Nat × Entry =>
      cosineSim q b.2.vec < cosineSim q a.2.vec ∨
        (cosineSim q a.2.vec = cosineSim q b.2.vec ∧ a.1 < b.1))
      (search entries q k) := by
  have hperm := perm_sortRanked q (indexedFrom 0 entries)
  constructor
  · rw [search, List.length_take, hperm.length_eq, indexedFrom_length entries 0]
  · have hps : List.Pairwise (RankRel q) (sortRanked q (indexedFrom 0 entries)) :=
      pairwise_sortRanked q hq (indexedFrom 0 entries)
        (fun y hy => he y.2 (indexedFrom_snd_mem entries 0 y hy))
    have hne : List.Pairwise (fun a b : Nat × Entry => a.1 ≠ b.1)
        (sortRanked q (indexedFrom 0 entries)) := by
      refine (hperm.pairwise_iff (fun h => h ∘ Eq.symm)).mpr ?_
      exact (indexedFrom_pairwise entries 0).imp fun h => Nat.ne_of_lt h
    rw [search]
    refine ((hps.and hne).sublist (List.take_sublist k _)).imp ?_
    rintro a b ⟨hr | ⟨heq, hle⟩, hne'⟩
    · exact Or.inl hr
    · exact Or.inr ⟨heq, Nat.lt_of_le_of_ne hle hne'⟩

/-- C1 witness: a two-entry index with `k = 5` returns `min 5 2` results. -/
theorem search_count_sorted_witness :
    (search [⟨"alpha", [3, 4]⟩, ⟨"beta", [4, 3]⟩] [3, 4] 5).length =
      min 5 ([⟨"alpha", [3, 4]⟩, ⟨"beta", [4, 3]⟩] : List Entry).length :=
  (search_count_sorted [⟨"alpha", [3, 4]⟩, ⟨"beta", [4, 3]⟩] [3, 4] 5
    (by decide) (by decide)).1

/-- C2: the similarity metric is cosine similarity — on the five-chunk
fixture, searching with `k = 3` and a query vector identical to chunk #2's
stored vector returns chunk #2 first, and its cosine similarity with the
query is exactly `1`. -/
theorem search_exact_match_cosine_one :
    (search chunkFixture [0, 1, 0, 0, 0] 3).head? =
      some (1, ⟨"chunk two", [0, 1, 0, 0, 0]⟩) ∧
    cosineSim [0, 1, 0, 0, 0] [0, 1, 0, 0, 0] = 1 ∧
    (search chunkFixture [0, 1, 0, 0, 0] 3).length = 3 := by
  refine ⟨by decide, ?_, by decide⟩
  have hd : dot [0, 1, 0, 0, 0] [0, 1, 0, 0, 0] = (1 : ℤ) := by decide
  rw [cosineSim, normSq, hd]
  norm_num

end SmitRag
